import Mathlib

/-!
Verification of the `mpmc` bounded multi-producer/multi-consumer queue
(`src/include/mpmc/mpmcqueue.hpp`) against its specification.

The embedding is sequential: an operation sequence is executed one completed
operation at a time.  A blocking operation (`emplace` / `pop`) whose busy-wait
would never exit in a single-threaded execution is modelled as `none`; the
non-blocking operations (`try_emplace` / `try_pop`) return their boolean result
together with the updated state, mirroring the C++ control flow.  Ticket
counters (`head_`, `tail_`) are modelled as unbounded naturals, matching the
spec's stated assumption that 64-bit tickets never wrap; `size()` keeps the
source's `size_t` subtraction and `ptrdiff_t` cast explicitly (mod `2^64`).
-/

namespace Mpmc

/-- One cell of the ring, from `struct slot`: a `turn` counter plus storage for
at most one element.  `storage = none` models uninitialized storage. -/
structure Slot (α : Type) where
  turn : Nat
  storage : Option α
deriving DecidableEq

/-- The queue state, from `class queue`: fixed capacity, the slot array
(the extra over-allocated slot is never touched semantically and is not
modelled), and the two ticket counters. -/
structure Queue (α : Type) where
  capacity_ : Nat
  slots_ : List (Slot α)
  head_ : Nat
  tail_ : Nat
deriving DecidableEq

/-- `idx_(i) = i % capacity_` (source line 252). -/
def Queue.idx_ {α : Type} (q : Queue α) (i : Nat) : Nat := i % q.capacity_

/-- `turn_(i) = i / capacity_` (source line 254). -/
def Queue.turn_ {α : Type} (q : Queue α) (i : Nat) : Nat := i / q.capacity_

/-- `slots_[idx_(i)]`; out-of-range access (impossible in reachable states)
defaults to a zeroed slot. -/
def Queue.slotAt {α : Type} (q : Queue α) (i : Nat) : Slot α :=
  q.slots_.getD (q.idx_ i) ⟨0, none⟩

/-- Blocking `emplace` (source lines 146-155), sequential semantics: the
producer takes ticket `head_`, spins until the slot's turn equals
`turn_(head) * 2`, constructs the element and publishes `turn_(head) * 2 + 1`.
In a single-threaded run the spin exits iff the turn already matches;
otherwise the operation never completes (`none`). -/
def Queue.emplace {α : Type} (q : Queue α) (v : α) : Option (Queue α) :=
  let head := q.head_
  let s := q.slotAt head
  if s.turn = q.turn_ head * 2 then
    some { q with
           head_ := head + 1,
           slots_ := q.slots_.set (q.idx_ head)
             { turn := q.turn_ head * 2 + 1, storage := some v } }
  else
    none

/-- Blocking `pop` (source lines 205-213), sequential semantics: the consumer
takes ticket `tail_`, spins until the slot's turn equals `turn_(tail) * 2 + 1`,
moves the element out, destroys it, and publishes `turn_(tail) * 2 + 2`.
Reading the storage is backed by the occupancy invariant (odd turn implies a
live element); the `getD default` totalisation is never exercised in reachable
states. -/
def Queue.pop {α : Type} [Inhabited α] (q : Queue α) : Option (Queue α × α) :=
  let tail := q.tail_
  let s := q.slotAt tail
  if s.turn = q.turn_ tail * 2 + 1 then
    some ({ q with
            tail_ := tail + 1,
            slots_ := q.slots_.set (q.idx_ tail)
              { turn := q.turn_ tail * 2 + 2, storage := none } },
          s.storage.getD default)
  else
    none

/-- Non-blocking `try_emplace` (source lines 157-177), sequential semantics:
with no interfering thread the loop runs exactly one iteration — if the slot
for the current head has the expected turn the CAS succeeds and the element is
published; otherwise the reload of `head_` returns the same value and the call
returns `false` leaving the state untouched. -/
def Queue.try_emplace {α : Type} (q : Queue α) (v : α) : Bool × Queue α :=
  let head := q.head_
  let s := q.slotAt head
  if s.turn = q.turn_ head * 2 then
    (true,
     { q with
       head_ := head + 1,
       slots_ := q.slots_.set (q.idx_ head)
         { turn := q.turn_ head * 2 + 1, storage := some v } })
  else
    (false, q)

/-- Non-blocking `try_pop` (source lines 215-234), sequential semantics; `v` is
the caller's out-parameter, returned unchanged when the call fails. -/
def Queue.try_pop {α : Type} (q : Queue α) (v : α) : Bool × Queue α × α :=
  let tail := q.tail_
  let s := q.slotAt tail
  if s.turn = q.turn_ tail * 2 + 1 then
    (true,
     { q with
       tail_ := tail + 1,
       slots_ := q.slots_.set (q.idx_ tail)
         { turn := q.turn_ tail * 2 + 2, storage := none } },
     s.storage.getD v)
  else
    (false, q, v)

/-- Unsigned 64-bit subtraction, as performed on the `size_t` counters in
`size()` (source line 242). -/
def size_t_sub (a b : Nat) : Nat := (a + (2 ^ 64 - b % 2 ^ 64)) % 2 ^ 64

/-- The `static_cast<ptrdiff_t>` of a 64-bit unsigned value. -/
def toPtrdiff (n : Nat) : Int := if n < 2 ^ 63 then (n : Int) else (n : Int) - 2 ^ 64

/-- `size()` (source lines 240-244): the unsigned difference of the two ticket
counters, reinterpreted as a signed integer. -/
def Queue.size {α : Type} (q : Queue α) : Int := toPtrdiff (size_t_sub q.head_ q.tail_)

/-- `empty()` (source line 249): `size() <= 0`. -/
def Queue.isEmpty {α : Type} (q : Queue α) : Bool := q.size ≤ 0

/-- Error surface of the constructor. -/
inductive ConstructError where
  | invalidArgument
  | allocationFailure
deriving DecidableEq

/-- Allocator interactions performed by the constructor / destructor, recorded
in order with the element count passed to the allocator. -/
inductive AllocEvent where
  | allocate (n : Nat)
  | deallocate (n : Nat)
deriving DecidableEq

/-- A freshly constructed queue: `head_ = 0`, `tail_ = 0`, and `capacity`
slots placement-initialised with `turn = 0` and no live element
(source lines 104, 117-119). -/
def freshQueue (α : Type) (capacity : Nat) : Queue α :=
  { capacity_ := capacity,
    slots_ := List.replicate capacity ⟨0, none⟩,
    head_ := 0,
    tail_ := 0 }

/-- The constructor (source lines 102-133): reject `capacity < 1` before
touching the allocator; otherwise allocate `capacity + 1` slots, and if the
returned address fails the alignment check deallocate and fail; otherwise
initialise every slot.  `alignedAlloc` models whether the allocator returned
suitably aligned memory.  The returned event list records the allocator
interactions in program order. -/
def construct (α : Type) (capacity : Nat) (alignedAlloc : Bool) :
    Except ConstructError (Queue α) × List AllocEvent :=
  if capacity < 1 then
    (.error .invalidArgument, [])
  else if alignedAlloc then
    (.ok (freshQueue α capacity), [.allocate (capacity + 1)])
  else
    (.error .allocationFailure,
     [.allocate (capacity + 1), .deallocate (capacity + 1)])

/-- Total number of slot objects allocated in an event list. -/
def allocatedTotal (evs : List AllocEvent) : Nat :=
  (evs.map fun e => match e with | .allocate n => n | .deallocate _ => 0).sum

/-- Total number of slot objects deallocated in an event list. -/
def deallocatedTotal (evs : List AllocEvent) : Nat :=
  (evs.map fun e => match e with | .allocate _ => 0 | .deallocate n => n).sum

/-- `~slot()` (source lines 66-70) destroys the stored element iff
`turn & 1` is set. -/
def Slot.dtorDestroys {α : Type} (s : Slot α) : Bool := s.turn % 2 = 1

/-- Number of element destructions performed by `~queue()` (source lines
135-140): one per slot whose destructor finds an odd turn. -/
def Queue.destructorDestroyCount {α : Type} (q : Queue α) : Nat :=
  q.slots_.countP fun s => Slot.dtorDestroys s

/-- Number of slots currently holding a live element, i.e. slots with odd
`turn`. -/
def Queue.liveCount {α : Type} (q : Queue α) : Nat :=
  q.slots_.countP fun s => s.turn % 2 = 1

/-- `cnt cap t j` is the number of tickets `k < t` whose ring index
`k % cap` equals `j`: how many operations of the given kind (producer for
`t = head_`, consumer for `t = tail_`) have completed on slot `j`. -/
def cnt (cap : Nat) : Nat → Nat → Nat
  | 0, _ => 0
  | t + 1, j => cnt cap t j + if t % cap = j then 1 else 0

/-- The exact contents of slot `j` in a sequential state reached after the
enqueues listed in `ins` (in order) and `tail` completed dequeues: the turn
counter has been bumped once by every completed producer and consumer ticket
on this slot, and the slot holds the element of ticket
`cnt cap tail j * cap + j` (its next consumer ticket) iff more producers than
consumers have visited. -/
def slotSpec {α : Type} [Inhabited α] (cap : Nat) (ins : List α) (tail j : Nat) :
    Slot α :=
  { turn := cnt cap ins.length j + cnt cap tail j,
    storage :=
      if cnt cap tail j < cnt cap ins.length j then
        some (ins.getD (cnt cap tail j * cap + j) default)
      else none }

/-- Invariant of sequential executions: `q` is the state after the enqueued
values `ins` (in ticket order) and the dequeued values `outs`; dequeues hand
out the oldest outstanding element, so `outs` is a prefix of `ins`, the ticket
counters equal the operation counts, and every slot is exactly `slotSpec`. -/
def GoodState {α : Type} [Inhabited α] (q : Queue α) (ins outs : List α) : Prop :=
  0 < q.capacity_ ∧
  q.head_ = ins.length ∧
  q.tail_ = outs.length ∧
  outs.length ≤ ins.length ∧
  ins.length ≤ outs.length + q.capacity_ ∧
  outs = ins.take outs.length ∧
  q.slots_ = (List.range q.capacity_).map (slotSpec q.capacity_ ins outs.length)

/-- One operation of a sequential client: blocking enqueue / dequeue or their
non-blocking variants. -/
inductive Op (α : Type) where
  | enq (v : α)
  | deq
  | tryEnq (v : α)
  | tryDeq

/-- Sequential execution of an operation list, threading the queue state and
accumulating the completed enqueued values `ins` and dequeued values `outs`
in order.  `none` means a blocking operation's busy-wait would never exit. -/
def runAux {α : Type} [Inhabited α] :
    Queue α × List α × List α → List (Op α) → Option (Queue α × List α × List α)
  | st, [] => some st
  | (q, ins, outs), Op.enq v :: ops =>
    match q.emplace v with
    | some q2 => runAux (q2, ins ++ [v], outs) ops
    | none => none
  | (q, ins, outs), Op.deq :: ops =>
    match q.pop with
    | some (q2, w) => runAux (q2, ins, outs ++ [w]) ops
    | none => none
  | (q, ins, outs), Op.tryEnq v :: ops =>
    match q.try_emplace v with
    | (true, q2) => runAux (q2, ins ++ [v], outs) ops
    | (false, q2) => runAux (q2, ins, outs) ops
  | (q, ins, outs), Op.tryDeq :: ops =>
    match q.try_pop default with
    | (true, q2, w) => runAux (q2, ins, outs ++ [w]) ops
    | (false, q2, _) => runAux (q2, ins, outs) ops

/-- Execute an operation list against a freshly constructed queue. -/
def run (α : Type) [Inhabited α] (cap : Nat) (ops : List (Op α)) :
    Option (Queue α × List α × List α) :=
  runAux (freshQueue α cap, [], []) ops

/-- The elements currently stored in the queue, in consumption order: the
occupants of the slots for tickets `tail_, tail_ + 1, …, head_ - 1`. -/
def Queue.contents {α : Type} [Inhabited α] (q : Queue α) : List α :=
  (List.range (q.head_ - q.tail_)).map fun i =>
    ((q.slotAt (q.tail_ + i)).storage).getD default

/-- One iteration's worth of observations made by the `try_emplace` /
`try_pop` retry loop when running against interfering threads: the turn value
read from the slot of the current ticket, whether the compare-exchange (when
attempted) succeeded, the counter value a failed compare-exchange reported,
and the value returned by the explicit re-load of the counter.  Interfering
threads choose these values arbitrarily. -/
structure TryObs where
  slotTurn : Nat
  casSuccess : Bool
  casObserved : Nat
  reload : Nat
deriving DecidableEq

/-- Result of the retry loop: `success t` — the compare-exchange claimed
ticket `t`; `failure t` — the loop returned false while holding ticket
observation `t`; `running t` — the observation budget ran out mid-loop. -/
inductive TryOutcome where
  | success (ticket : Nat)
  | failure (ticket : Nat)
  | running (ticket : Nat)
deriving DecidableEq

/-- The retry loop shared by `try_emplace` (source lines 161-176) and
`try_pop` (source lines 217-233), abstracted over the expected turn value for
a ticket: if the slot of the current ticket shows the expected turn, attempt
the compare-exchange — on success return true, on failure retry from the
counter value the compare-exchange observed; otherwise re-load the counter —
if it is unchanged return false, else retry from the re-loaded value. -/
def tryLoop (expected : Nat → Nat) : Nat → List TryObs → TryOutcome
  | t, [] => .running t
  | t, o :: rest =>
    if o.slotTurn = expected t then
      if o.casSuccess then .success t
      else tryLoop expected o.casObserved rest
    else if o.reload = t then .failure t
    else tryLoop expected o.reload rest

/-- The turn value `try_emplace` expects for head ticket `t`:
`turn_(t) * 2` (source line 163). -/
def tryEmplaceExpected (cap t : Nat) : Nat := t / cap * 2

/-- The turn value `try_pop` expects for tail ticket `t`:
`turn_(t) * 2 + 1` (source line 219). -/
def tryPopExpected (cap t : Nat) : Nat := t / cap * 2 + 1

/-- The nothrow traits of a candidate element type, as queried by the
`static_assert`s and type traits in the source. -/
structure TypeTraits where
  nothrow_copy_assignable : Bool
  nothrow_move_assignable : Bool
  nothrow_destructible : Bool
  nothrow_copy_constructible : Bool
  nothrow_move_constructible : Bool
deriving DecidableEq

/-- The class-level static checks of `queue<T>` (source lines 94-99): `T`
must be nothrow copy- or move-assignable, and nothrow destructible.  These
are the checks every instantiation of the queue triggers. -/
def queue_static_checks (t : TypeTraits) : Bool :=
  (t.nothrow_copy_assignable || t.nothrow_move_assignable) &&
    t.nothrow_destructible

/-- The additional static check of `push(const T&)` / `try_push(const T&)`
(source lines 179-196): nothrow copy constructibility. -/
def push_static_checks (t : TypeTraits) : Bool :=
  queue_static_checks t && t.nothrow_copy_constructible

theorem cnt_succ (cap t j : Nat) :
    cnt cap (t + 1) j = cnt cap t j + if t % cap = j then 1 else 0 := rfl

/-- Closed form of the ticket count in terms of generation and ring index. -/
theorem cnt_closed (cap : Nat) (hcap : 0 < cap) (t j : Nat) (hj : j < cap) :
    cnt cap t j = t / cap + if j < t % cap then 1 else 0 := by
  induction t with
  | zero => simp [cnt]
  | succ t ih =>
    rw [cnt_succ, ih]
    rcases Nat.lt_or_ge (t % cap + 1) cap with hlt | hge
    · have h1 : t + 1 = (t % cap + 1) + (t / cap) * cap := by
        have hdm := Nat.div_add_mod t cap
        have hc : cap * (t / cap) = (t / cap) * cap := Nat.mul_comm _ _
        omega
      have hdiv : (t + 1) / cap = t / cap := by
        rw [h1, Nat.add_mul_div_right _ _ hcap, Nat.div_eq_of_lt hlt]
        omega
      have hmod : (t + 1) % cap = t % cap + 1 := by
        rw [h1, Nat.add_mul_mod_self_right, Nat.mod_eq_of_lt hlt]
      rw [hdiv, hmod]
      split_ifs <;> omega
    · have hm : t % cap + 1 = cap := by
        have := Nat.mod_lt t hcap
        omega
      have h1 : t + 1 = cap * (t / cap) + cap := by
        have hdm := Nat.div_add_mod t cap
        omega
      have h2 : cap * (t / cap) + cap = cap * (t / cap + 1) := by ring
      have hdiv : (t + 1) / cap = t / cap + 1 := by
        rw [h1, h2, Nat.mul_div_cancel_left _ hcap]
      have hmod : (t + 1) % cap = 0 := by
        rw [h1, h2, Nat.mul_mod_right]
      rw [hdiv, hmod]
      split_ifs <;> omega

/-- A ticket counter's own slot has been hit exactly `t / cap` times by
tickets below `t`. -/
theorem cnt_self (cap : Nat) (hcap : 0 < cap) (t : Nat) :
    cnt cap t (t % cap) = t / cap := by
  rw [cnt_closed cap hcap t _ (Nat.mod_lt t hcap)]
  simp

theorem cnt_mono (cap j : Nat) {t t' : Nat} (h : t ≤ t') :
    cnt cap t j ≤ cnt cap t' j := by
  induction t', h using Nat.le_induction with
  | base => exact Nat.le_refl _
  | succ n hn ih =>
    rw [cnt_succ]
    omega

/-- One full lap of the ring adds exactly one ticket to every slot's count. -/
theorem cnt_lap (cap : Nat) (hcap : 0 < cap) (t j : Nat) (hj : j < cap) :
    cnt cap (t + cap) j = cnt cap t j + 1 := by
  rw [cnt_closed cap hcap _ _ hj, cnt_closed cap hcap t j hj,
    Nat.add_div_right _ hcap, Nat.add_mod_right]
  split_ifs <;> omega

/-- Within a window of at most one lap, a slot's ticket count grows by at
most one. -/
theorem cnt_window (cap : Nat) (hcap : 0 < cap) {t t' : Nat} (j : Nat)
    (hj : j < cap) (_h1 : t ≤ t') (h2 : t' ≤ t + cap) :
    cnt cap t' j ≤ cnt cap t j + 1 := by
  have := cnt_mono cap j h2
  rw [cnt_lap cap hcap t j hj] at this
  omega

/-- For a ticket `k` less than one lap ahead of `t`, no ticket in `[t, k)`
shares `k`'s slot, so `t`'s count at that slot is exactly `k`'s generation. -/
theorem cnt_window_self (cap : Nat) (hcap : 0 < cap) {t k : Nat}
    (h1 : t ≤ k) (h2 : k < t + cap) :
    cnt cap t (k % cap) = k / cap := by
  have hj : k % cap < cap := Nat.mod_lt k hcap
  have hle : cnt cap t (k % cap) ≤ k / cap := by
    have := cnt_mono cap (k % cap) h1
    rw [cnt_self cap hcap k] at this
    exact this
  have hge : k / cap + 1 ≤ cnt cap t (k % cap) + 1 := by
    have hstep : cnt cap (k + 1) (k % cap) = k / cap + 1 := by
      rw [cnt_succ, cnt_self cap hcap k]
      simp
    have := cnt_window cap hcap (k % cap) hj
      (by omega : t ≤ k + 1) (by omega : k + 1 ≤ t + cap)
    omega
  omega

/-- A slot hit more than `d` times by tickets below `t` received its
`(d+1)`-st hit from ticket `d * cap + j`, which therefore lies below `t`. -/
theorem cnt_gt_imp (cap : Nat) (hcap : 0 < cap) {t j d : Nat} (hj : j < cap)
    (hd : d < cnt cap t j) : d * cap + j < t := by
  rw [cnt_closed cap hcap t j hj] at hd
  have hcase : d + 1 ≤ t / cap ∨ (d = t / cap ∧ j < t % cap) := by
    split_ifs at hd <;> omega
  rcases hcase with h | ⟨hdq, hjr⟩
  · have h2 : (d + 1) * cap ≤ (t / cap) * cap := Nat.mul_le_mul_right cap h
    have h3 : t / cap * cap ≤ t := Nat.div_mul_le_self t cap
    have h4 : (d + 1) * cap = d * cap + cap := by ring
    omega
  · have hdm := Nat.div_add_mod t cap
    have hc : cap * (t / cap) = (t / cap) * cap := Nat.mul_comm _ _
    subst hdq
    omega

theorem sum_map_add_nat {β : Type} (l : List β) (f g : β → Nat) :
    (l.map fun j => f j + g j).sum = (l.map f).sum + (l.map g).sum := by
  induction l with
  | nil => simp
  | cons a l ih =>
    simp only [List.map_cons, List.sum_cons, ih]
    omega

theorem sum_map_indicator_of_not_mem (x : Nat) (l : List Nat) (h : x ∉ l) :
    (l.map fun j => if x = j then 1 else 0).sum = 0 := by
  induction l with
  | nil => simp
  | cons a l ih =>
    have ha : x ≠ a := fun he => h (he ▸ List.mem_cons_self a l)
    have hl : x ∉ l := fun hm => h (List.mem_cons_of_mem a hm)
    simp only [List.map_cons, List.sum_cons, if_neg ha, ih hl]

theorem sum_map_indicator_of_mem (x : Nat) (l : List Nat) (hnd : l.Nodup)
    (h : x ∈ l) : (l.map fun j => if x = j then 1 else 0).sum = 1 := by
  induction l with
  | nil => simp at h
  | cons a l ih =>
    rcases List.mem_cons.mp h with rfl | hmem
    · have hnotin : x ∉ l := (List.nodup_cons.mp hnd).1
      simp [sum_map_indicator_of_not_mem x l hnotin]
    · have hna : x ≠ a := by
        rintro rfl
        exact (List.nodup_cons.mp hnd).1 hmem
      simp only [List.map_cons, List.sum_cons, if_neg hna,
        ih (List.nodup_cons.mp hnd).2 hmem]

/-- Every ticket below `t` lands on exactly one slot: the per-slot counts over
the whole ring sum to `t`. -/
theorem cnt_range_sum (cap : Nat) (hcap : 0 < cap) (t : Nat) :
    ((List.range cap).map fun j => cnt cap t j).sum = t := by
  induction t with
  | zero => simp [cnt]
  | succ t ih =>
    have hsplit : ((List.range cap).map fun j => cnt cap (t + 1) j).sum =
        ((List.range cap).map fun j => cnt cap t j).sum +
        ((List.range cap).map fun j => if t % cap = j then 1 else 0).sum := by
      rw [← sum_map_add_nat]
      rfl
    have hmem : t % cap ∈ List.range cap := by
      rw [List.mem_range]
      exact Nat.mod_lt t hcap
    rw [hsplit, ih,
      sum_map_indicator_of_mem _ _ (List.nodup_range cap) hmem]

theorem getD_map_range {β : Type} (f : Nat → β) {n j : Nat} (hj : j < n) (d : β) :
    ((List.range n).map f).getD j d = f j := by
  rw [List.getD_eq_getElem _ _ (by simp [hj])]
  simp [hj]

theorem GoodState.slotAt_eq {α : Type} [Inhabited α] {q : Queue α}
    {ins outs : List α} (hg : GoodState q ins outs) (i : Nat) :
    q.slotAt i = slotSpec q.capacity_ ins outs.length (i % q.capacity_) := by
  obtain ⟨hcap, -, -, -, -, -, hslots⟩ := hg
  unfold Queue.slotAt Queue.idx_
  rw [hslots, getD_map_range _ (Nat.mod_lt i hcap)]

/-- The producer guard: the slot for ticket `head_` shows turn
`2 * turn_(head_)` exactly when the queue currently holds fewer than
`capacity` elements. -/
theorem enq_guard_iff {α : Type} [Inhabited α] {q : Queue α} {ins outs : List α}
    (hg : GoodState q ins outs) :
    ((q.slotAt q.head_).turn = q.turn_ q.head_ * 2 ↔
      q.head_ < q.tail_ + q.capacity_) := by
  have hslot := hg.slotAt_eq q.head_
  obtain ⟨hcap, hh, ht, hlen1, hlen2, -, -⟩ := hg
  rw [hslot]
  unfold Queue.turn_
  simp only [slotSpec]
  rw [hh, ht]
  rw [cnt_self q.capacity_ hcap ins.length]
  constructor
  · intro hguard
    by_contra hfull
    have heq : ins.length = outs.length + q.capacity_ := by omega
    have hmod : ins.length % q.capacity_ = outs.length % q.capacity_ := by
      rw [heq, Nat.add_mod_right]
    have hdiv : ins.length / q.capacity_ = outs.length / q.capacity_ + 1 := by
      rw [heq, Nat.add_div_right _ hcap]
    rw [hmod, cnt_self q.capacity_ hcap outs.length, hdiv] at hguard
    omega
  · intro hlt
    rw [cnt_window_self q.capacity_ hcap hlen1 hlt]
    omega

/-- The consumer guard: the slot for ticket `tail_` shows turn
`2 * turn_(tail_) + 1` exactly when an element is outstanding. -/
theorem deq_guard_iff {α : Type} [Inhabited α] {q : Queue α} {ins outs : List α}
    (hg : GoodState q ins outs) :
    ((q.slotAt q.tail_).turn = q.turn_ q.tail_ * 2 + 1 ↔ q.tail_ < q.head_) := by
  have hslot := hg.slotAt_eq q.tail_
  obtain ⟨hcap, hh, ht, hlen1, hlen2, -, -⟩ := hg
  rw [hslot]
  unfold Queue.turn_
  simp only [slotSpec]
  rw [hh, ht]
  rw [cnt_self q.capacity_ hcap outs.length]
  constructor
  · intro hguard
    by_contra hempty
    have hgeq : ins.length = outs.length := by omega
    rw [hgeq, cnt_self q.capacity_ hcap outs.length] at hguard
    omega
  · intro hlt
    have hstep : cnt q.capacity_ (outs.length + 1)
        (outs.length % q.capacity_) = outs.length / q.capacity_ + 1 := by
      rw [cnt_succ, cnt_self q.capacity_ hcap outs.length]
      simp
    have hmono := cnt_mono q.capacity_ (outs.length % q.capacity_)
      (by omega : outs.length + 1 ≤ ins.length)
    have hwin := cnt_window q.capacity_ hcap (outs.length % q.capacity_)
      (Nat.mod_lt _ hcap) hlen1 hlen2
    rw [cnt_self q.capacity_ hcap outs.length] at hwin
    omega

theorem slots_set_spec {α : Type} (cap : Nat) (f g : Nat → Slot α)
    (j0 : Nat) (_hj0 : j0 < cap) (s : Slot α)
    (hsame : ∀ k, k < cap → k ≠ j0 → g k = f k) (hnew : g j0 = s) :
    ((List.range cap).map f).set j0 s = (List.range cap).map g := by
  apply List.ext_getElem
  · simp
  · intro k h1 h2
    simp only [List.length_set, List.length_map, List.length_range] at h1
    rw [List.getElem_set]
    rw [List.getElem_map, List.getElem_range]
    rw [List.getElem_map, List.getElem_range]
    by_cases hk : j0 = k
    · rw [if_pos hk, ← hk, hnew]
    · rw [if_neg hk, hsame k h1 fun he => hk he.symm]

theorem getD_append_left {α : Type} (l l2 : List α) (n : Nat) (d : α)
    (h : n < l.length) : (l ++ l2).getD n d = l.getD n d := by
  rw [List.getD_eq_getElem _ _ (by simp; omega), List.getD_eq_getElem _ _ h]
  exact List.getElem_append_left h

/-- Appending a new enqueue leaves every other slot's description unchanged. -/
theorem slotSpec_append_ne {α : Type} [Inhabited α] (cap : Nat) (hcap : 0 < cap)
    (ins : List α) (v : α) (tail k : Nat) (hk : k < cap)
    (hne : ins.length % cap ≠ k) :
    slotSpec cap (ins ++ [v]) tail k = slotSpec cap ins tail k := by
  have h1 : cnt cap (ins ++ [v]).length k = cnt cap ins.length k := by
    simp only [List.length_append, List.length_singleton]
    rw [cnt_succ, if_neg hne, Nat.add_zero]
  unfold slotSpec
  rw [h1]
  by_cases hocc : cnt cap tail k < cnt cap ins.length k
  · rw [if_pos hocc, if_pos hocc,
      getD_append_left _ _ _ _ (cnt_gt_imp cap hcap hk hocc)]
  · rw [if_neg hocc, if_neg hocc]

theorem slot_mk_eq {α : Type} {t1 t2 : Nat} {s : Option α} (h : t1 = t2) :
    (⟨t1, s⟩ : Slot α) = ⟨t2, s⟩ := by rw [h]

/-- The slot claimed by the new enqueue becomes full for its generation and
holds the appended value. -/
theorem slotSpec_append_eq {α : Type} [Inhabited α] (cap : Nat) (hcap : 0 < cap)
    (ins : List α) (v : α) (tail : Nat)
    (hD : cnt cap tail (ins.length % cap) = ins.length / cap) :
    slotSpec cap (ins ++ [v]) tail (ins.length % cap) =
      ⟨ins.length / cap * 2 + 1, some v⟩ := by
  have h1 : cnt cap (ins ++ [v]).length (ins.length % cap) =
      ins.length / cap + 1 := by
    simp only [List.length_append, List.length_singleton]
    rw [cnt_succ, if_pos rfl, cnt_self cap hcap]
  have hidx : ins.length / cap * cap + ins.length % cap = ins.length := by
    have hdm := Nat.div_add_mod ins.length cap
    have hc : cap * (ins.length / cap) = ins.length / cap * cap := Nat.mul_comm _ _
    omega
  have hget : (ins ++ [v]).getD ins.length default = v := by
    rw [List.getD_eq_getElem _ _ (by simp)]
    simp
  unfold slotSpec
  rw [h1, hD, if_pos (by omega), hidx, hget]
  exact slot_mk_eq (by omega)

/-- Completing a dequeue leaves every other slot's description unchanged. -/
theorem slotSpec_deq_ne {α : Type} [Inhabited α] (cap : Nat) (ins : List α)
    (tail k : Nat) (hne : tail % cap ≠ k) :
    slotSpec cap ins (tail + 1) k = slotSpec cap ins tail k := by
  unfold slotSpec
  rw [cnt_succ, if_neg hne, Nat.add_zero]

/-- The slot drained by the dequeue of ticket `tail` becomes empty, awaiting
the producer of the next generation. -/
theorem slotSpec_deq_eq {α : Type} [Inhabited α] (cap : Nat) (hcap : 0 < cap)
    (ins : List α) (tail : Nat)
    (hE : cnt cap ins.length (tail % cap) = tail / cap + 1) :
    slotSpec cap ins (tail + 1) (tail % cap) =
      ⟨tail / cap * 2 + 2, none⟩ := by
  have h1 : cnt cap (tail + 1) (tail % cap) = tail / cap + 1 := by
    rw [cnt_succ, if_pos rfl, cnt_self cap hcap]
  unfold slotSpec
  rw [h1, hE, if_neg (by omega)]
  exact slot_mk_eq (by omega)

/-- Count of completed producer visits to the slot of a pending consumer
ticket: when an element is outstanding, exactly one producer lap beyond the
consumers'. -/
theorem cnt_head_at_tail {cap tailv headv : Nat} (hcap : 0 < cap)
    (h1 : tailv < headv) (h2 : headv ≤ tailv + cap) :
    cnt cap headv (tailv % cap) = tailv / cap + 1 := by
  have hstep : cnt cap (tailv + 1) (tailv % cap) = tailv / cap + 1 := by
    rw [cnt_succ, if_pos rfl, cnt_self cap hcap]
  have hmono := cnt_mono cap (tailv % cap) (by omega : tailv + 1 ≤ headv)
  have hwin := cnt_window cap hcap (tailv % cap) (Nat.mod_lt _ hcap)
    (by omega : tailv ≤ headv) h2
  rw [cnt_self cap hcap tailv] at hwin
  omega

/-- A completed blocking `emplace` appends its value to the enqueue history
and preserves the sequential invariant. -/
theorem emplace_good {α : Type} [Inhabited α] {q q' : Queue α}
    {ins outs : List α} {v : α} (hg : GoodState q ins outs)
    (h : q.emplace v = some q') : GoodState q' (ins ++ [v]) outs := by
  have hguard : (q.slotAt q.head_).turn = q.turn_ q.head_ * 2 := by
    by_contra hne
    simp only [Queue.emplace] at h
    rw [if_neg hne] at h
    exact Option.noConfusion h
  simp only [Queue.emplace] at h
  rw [if_pos hguard] at h
  injection h with h
  subst h
  have hlt : q.head_ < q.tail_ + q.capacity_ := (enq_guard_iff hg).mp hguard
  obtain ⟨hcap, hh, ht, hlen1, hlen2, hpre, hslots⟩ := hg
  refine ⟨hcap, by simp [hh], ht, by simp; omega, by simp; omega, ?_, ?_⟩
  · rw [List.take_append_of_le_length hlen1]
    exact hpre
  · show q.slots_.set (q.idx_ q.head_) _ = _
    rw [hslots]
    unfold Queue.idx_ Queue.turn_
    rw [hh] at hlt ⊢
    rw [ht] at hlt
    apply slots_set_spec q.capacity_ _ _ (ins.length % q.capacity_)
      (Nat.mod_lt _ hcap)
    · intro k hk hkne
      exact slotSpec_append_ne q.capacity_ hcap ins v outs.length k hk
        fun he => hkne he.symm
    · exact slotSpec_append_eq q.capacity_ hcap ins v outs.length
        (cnt_window_self q.capacity_ hcap hlen1 hlt)

/-- A completed blocking `pop` returns the oldest outstanding element — the
`tail_`-th value ever enqueued — and preserves the sequential invariant. -/
theorem pop_good {α : Type} [Inhabited α] {q q' : Queue α}
    {ins outs : List α} {v : α} (hg : GoodState q ins outs)
    (h : q.pop = some (q', v)) :
    v = ins.getD q.tail_ default ∧ GoodState q' ins (outs ++ [v]) := by
  have hguard : (q.slotAt q.tail_).turn = q.turn_ q.tail_ * 2 + 1 := by
    by_contra hne
    simp only [Queue.pop] at h
    rw [if_neg hne] at h
    exact Option.noConfusion h
  simp only [Queue.pop] at h
  rw [if_pos hguard] at h
  injection h with h
  injection h with hq' hv
  have hlt : q.tail_ < q.head_ := (deq_guard_iff hg).mp hguard
  have hslotAt := hg.slotAt_eq q.tail_
  obtain ⟨hcap, hh, ht, hlen1, hlen2, hpre, hslots⟩ := hg
  rw [hh, ht] at hlt
  have hE : cnt q.capacity_ ins.length (outs.length % q.capacity_) =
      outs.length / q.capacity_ + 1 := cnt_head_at_tail hcap hlt hlen2
  have hval : (q.slotAt q.tail_).storage.getD default =
      ins.getD outs.length default := by
    rw [hslotAt, ht]
    simp only [slotSpec]
    rw [cnt_self q.capacity_ hcap outs.length, hE, if_pos (by omega)]
    have hidx : outs.length / q.capacity_ * q.capacity_ +
        outs.length % q.capacity_ = outs.length := by
      have hdm := Nat.div_add_mod outs.length q.capacity_
      have hc : q.capacity_ * (outs.length / q.capacity_) =
          outs.length / q.capacity_ * q.capacity_ := Nat.mul_comm _ _
      omega
    rw [hidx]
    rfl
  have hvval : v = ins.getD q.tail_ default := by
    rw [← hv, hval, ht]
  refine ⟨hvval, ?_⟩
  rw [← hq']
  have houts : (outs ++ [v]).length = outs.length + 1 := by simp
  refine ⟨hcap, by simp [hh], by simp [ht], by simp; omega, by simp; omega, ?_, ?_⟩
  · rw [houts, hvval, ht]
    rw [List.take_succ, List.getElem?_eq_getElem hlt,
      List.getD_eq_getElem ins default hlt, ← hpre]
    rfl
  · show q.slots_.set (q.idx_ q.tail_) _ = _
    rw [hslots, houts]
    unfold Queue.idx_ Queue.turn_
    rw [ht]
    apply slots_set_spec q.capacity_ _ _ (outs.length % q.capacity_)
      (Nat.mod_lt _ hcap)
    · intro k hk hkne
      exact slotSpec_deq_ne q.capacity_ ins outs.length k fun he => hkne he.symm
    · exact slotSpec_deq_eq q.capacity_ hcap ins outs.length hE

/-- A failed `try_emplace` leaves the queue untouched. -/
theorem try_emplace_false_frame {α : Type} (q : Queue α) (v : α)
    (h : (q.try_emplace v).1 = false) : (q.try_emplace v).2 = q := by
  by_cases hguard : (q.slotAt q.head_).turn = q.turn_ q.head_ * 2
  · simp [Queue.try_emplace, if_pos hguard] at h
  · simp [Queue.try_emplace, if_neg hguard]

/-- A failed `try_pop` leaves the queue untouched and returns the caller's
out-parameter unchanged. -/
theorem try_pop_false_frame {α : Type} (q : Queue α) (w : α)
    (h : (q.try_pop w).1 = false) :
    (q.try_pop w).2.1 = q ∧ (q.try_pop w).2.2 = w := by
  by_cases hguard : (q.slotAt q.tail_).turn = q.turn_ q.tail_ * 2 + 1
  · simp [Queue.try_pop, if_pos hguard] at h
  · simp [Queue.try_pop, if_neg hguard]

/-- A successful `try_emplace` performs exactly the state change of a
completed blocking `emplace`. -/
theorem try_emplace_good {α : Type} [Inhabited α] {q : Queue α}
    {ins outs : List α} {v : α} (hg : GoodState q ins outs)
    (h : (q.try_emplace v).1 = true) :
    GoodState (q.try_emplace v).2 (ins ++ [v]) outs := by
  have hguard : (q.slotAt q.head_).turn = q.turn_ q.head_ * 2 := by
    by_contra hne
    simp [Queue.try_emplace, if_neg hne] at h
  have hem : q.emplace v = some (q.try_emplace v).2 := by
    simp [Queue.emplace, Queue.try_emplace, if_pos hguard]
  exact emplace_good hg hem

/-- In a state satisfying the invariant, the consumer guard implies the slot
really holds the oldest outstanding element. -/
theorem tail_slot_storage {α : Type} [Inhabited α] {q : Queue α}
    {ins outs : List α} (hg : GoodState q ins outs)
    (hguard : (q.slotAt q.tail_).turn = q.turn_ q.tail_ * 2 + 1) :
    (q.slotAt q.tail_).storage = some (ins.getD outs.length default) := by
  have hlt : q.tail_ < q.head_ := (deq_guard_iff hg).mp hguard
  have hslotAt := hg.slotAt_eq q.tail_
  obtain ⟨hcap, hh, ht, hlen1, hlen2, hpre, hslots⟩ := hg
  rw [hh, ht] at hlt
  have hE := cnt_head_at_tail hcap hlt hlen2
  rw [hslotAt, ht]
  simp only [slotSpec]
  rw [cnt_self q.capacity_ hcap outs.length, hE, if_pos (by omega)]
  have hidx : outs.length / q.capacity_ * q.capacity_ +
      outs.length % q.capacity_ = outs.length := by
    have hdm := Nat.div_add_mod outs.length q.capacity_
    have hc : q.capacity_ * (outs.length / q.capacity_) =
        outs.length / q.capacity_ * q.capacity_ := Nat.mul_comm _ _
    omega
  rw [hidx]

/-- A successful `try_pop` returns the oldest outstanding element and performs
exactly the state change of a completed blocking `pop`. -/
theorem try_pop_good {α : Type} [Inhabited α] {q : Queue α}
    {ins outs : List α} (w : α) (hg : GoodState q ins outs)
    (h : (q.try_pop w).1 = true) :
    (q.try_pop w).2.2 = ins.getD q.tail_ default ∧
    GoodState (q.try_pop w).2.1 ins (outs ++ [(q.try_pop w).2.2]) := by
  have hguard : (q.slotAt q.tail_).turn = q.turn_ q.tail_ * 2 + 1 := by
    by_contra hne
    simp [Queue.try_pop, if_neg hne] at h
  have hx := tail_slot_storage hg hguard
  have h22 : (q.try_pop w).2.2 = ins.getD outs.length default := by
    simp [Queue.try_pop, if_pos hguard, hx]
  have hpop : q.pop = some ((q.try_pop w).2.1, ins.getD outs.length default) := by
    simp [Queue.pop, Queue.try_pop, if_pos hguard, hx]
  obtain ⟨hval, hgood⟩ := pop_good hg hpop
  rw [h22]
  exact ⟨hval.symm ▸ hval, hgood⟩

/-- A freshly constructed queue satisfies the sequential invariant with empty
histories. -/
theorem good_fresh (α : Type) [Inhabited α] (cap : Nat) (hcap : 0 < cap) :
    GoodState (freshQueue α cap) [] [] := by
  refine ⟨hcap, rfl, rfl, Nat.le_refl _, by simp [freshQueue], rfl, ?_⟩
  simp only [freshQueue, List.length_nil]
  apply List.ext_getElem
  · simp
  · intro k h1 h2
    simp only [List.getElem_replicate, List.getElem_map, List.getElem_range]
    unfold slotSpec
    simp [cnt]

/-- The sequential invariant is preserved by every completed run. -/
theorem runAux_good {α : Type} [Inhabited α] (ops : List (Op α)) :
    ∀ {q : Queue α} {ins outs : List α} {q' : Queue α} {ins' outs' : List α},
    GoodState q ins outs →
    runAux (q, ins, outs) ops = some (q', ins', outs') →
    GoodState q' ins' outs' := by
  induction ops with
  | nil =>
    intro q ins outs q' ins' outs' hg h
    simp only [runAux] at h
    injection h with h
    injection h with h1 h23
    injection h23 with h2 h3
    subst h1
    subst h2
    subst h3
    exact hg
  | cons op ops ih =>
    intro q ins outs q' ins' outs' hg h
    cases op with
    | enq v =>
      simp only [runAux] at h
      split at h
      · rename_i q2 heq
        exact ih (emplace_good hg heq) h
      · exact Option.noConfusion h
    | deq =>
      simp only [runAux] at h
      split at h
      · rename_i q2 w heq
        exact ih (pop_good hg heq).2 h
      · exact Option.noConfusion h
    | tryEnq v =>
      simp only [runAux] at h
      split at h
      · rename_i q2 heq
        have h1 : (q.try_emplace v).1 = true := by rw [heq]
        have hgood := try_emplace_good hg h1
        rw [heq] at hgood
        exact ih hgood h
      · rename_i q2 heq
        have h1 : (q.try_emplace v).1 = false := by rw [heq]
        have hfr := try_emplace_false_frame q v h1
        rw [heq] at hfr
        subst hfr
        exact ih hg h
    | tryDeq =>
      simp only [runAux] at h
      split at h
      · rename_i q2 w heq
        have h1 : (q.try_pop default).1 = true := by rw [heq]
        obtain ⟨hval, hgood⟩ := try_pop_good default hg h1
        rw [heq] at hgood
        exact ih hgood h
      · rename_i q2 w heq
        have h1 : (q.try_pop default).1 = false := by rw [heq]
        have hfr := (try_pop_false_frame q default h1).1
        rw [heq] at hfr
        subst hfr
        exact ih hg h

/-- Any completed run from a fresh queue reaches a state satisfying the
sequential invariant. -/
theorem run_good {α : Type} [Inhabited α] {cap : Nat} {ops : List (Op α)}
    {q' : Queue α} {ins' outs' : List α} (hcap : 0 < cap)
    (h : run α cap ops = some (q', ins', outs')) :
    GoodState q' ins' outs' :=
  runAux_good ops (good_fresh α cap hcap) h

theorem countP_odd_eq_sum_sub (E D : Nat → Nat) :
    ∀ l : List Nat, (∀ j ∈ l, D j ≤ E j ∧ E j ≤ D j + 1) →
    (l.countP fun j => decide ((E j + D j) % 2 = 1)) =
      (l.map fun j => E j - D j).sum := by
  intro l
  induction l with
  | nil => intro _; simp
  | cons a l ihl =>
    intro hall
    have ha := hall a (List.mem_cons_self a l)
    have hl := fun j hj => hall j (List.mem_cons_of_mem a hj)
    rw [List.countP_cons, List.map_cons, List.sum_cons, ihl hl]
    rcases Nat.lt_or_ge (D a) (E a) with h | h
    · have hodd : (E a + D a) % 2 = 1 := by omega
      simp only [hodd]
      simp
      omega
    · have heven : (E a + D a) % 2 = 0 := by omega
      simp only [heven]
      simp
      omega

theorem sum_sub_pointwise (E D : Nat → Nat) :
    ∀ l : List Nat, (∀ j ∈ l, D j ≤ E j) →
    (l.map fun j => E j - D j).sum + (l.map D).sum = (l.map E).sum := by
  intro l
  induction l with
  | nil => intro _; simp
  | cons a l ihl =>
    intro hall
    have ha := hall a (List.mem_cons_self a l)
    have hl := fun j hj => hall j (List.mem_cons_of_mem a hj)
    simp only [List.map_cons, List.sum_cons]
    have := ihl hl
    omega

/-- In every reachable sequential state the number of slots with odd turn —
the live elements — is exactly the number of enqueues minus the number of
dequeues, and never exceeds the capacity. -/
theorem liveCount_good {α : Type} [Inhabited α] {q : Queue α}
    {ins outs : List α} (hg : GoodState q ins outs) :
    q.liveCount = ins.length - outs.length ∧ q.liveCount ≤ q.capacity_ := by
  obtain ⟨hcap, hh, ht, hlen1, hlen2, hpre, hslots⟩ := hg
  have hmain : q.liveCount = ins.length - outs.length := by
    unfold Queue.liveCount
    rw [hslots, List.countP_map]
    have hpred : ((List.range q.capacity_).countP fun j =>
        decide ((slotSpec q.capacity_ ins outs.length j).turn % 2 = 1)) =
        ((List.range q.capacity_).countP fun j =>
        decide ((cnt q.capacity_ ins.length j + cnt q.capacity_ outs.length j)
          % 2 = 1)) := by
      apply List.countP_congr
      intro j _
      simp [slotSpec]
    have hbound : ∀ j ∈ List.range q.capacity_,
        cnt q.capacity_ outs.length j ≤ cnt q.capacity_ ins.length j ∧
        cnt q.capacity_ ins.length j ≤ cnt q.capacity_ outs.length j + 1 := by
      intro j hj
      exact ⟨cnt_mono q.capacity_ j hlen1,
        cnt_window q.capacity_ hcap j (List.mem_range.mp hj) hlen1 hlen2⟩
    have hcomp : ((fun s : Slot α => decide (s.turn % 2 = 1)) ∘
        slotSpec q.capacity_ ins outs.length) = fun j =>
        decide ((slotSpec q.capacity_ ins outs.length j).turn % 2 = 1) := rfl
    rw [hcomp, hpred,
      countP_odd_eq_sum_sub _ _ (List.range q.capacity_) hbound]
    have hsub := sum_sub_pointwise (cnt q.capacity_ ins.length)
      (cnt q.capacity_ outs.length) (List.range q.capacity_)
      fun j _ => cnt_mono q.capacity_ j hlen1
    rw [cnt_range_sum q.capacity_ hcap ins.length,
      cnt_range_sum q.capacity_ hcap outs.length] at hsub
    omega
  exact ⟨hmain, by omega⟩

/-- In every reachable sequential state the stored elements are exactly the
enqueued values not yet dequeued, oldest first. -/
theorem contents_good {α : Type} [Inhabited α] {q : Queue α}
    {ins outs : List α} (hg : GoodState q ins outs) :
    q.contents = ins.drop outs.length := by
  have hslotAt := fun i => hg.slotAt_eq i
  obtain ⟨hcap, hh, ht, hlen1, hlen2, hpre, hslots⟩ := hg
  unfold Queue.contents
  rw [hh, ht]
  apply List.ext_getElem
  · simp
  · intro k h1 h2
    simp only [List.length_map, List.length_range] at h1
    simp only [List.getElem_map, List.getElem_range]
    have hk : k < q.capacity_ := by omega
    have ht3 : outs.length + k < ins.length := by omega
    have hD : cnt q.capacity_ outs.length ((outs.length + k) % q.capacity_) =
        (outs.length + k) / q.capacity_ :=
      cnt_window_self q.capacity_ hcap (by omega) (by omega)
    have hE : (outs.length + k) / q.capacity_ <
        cnt q.capacity_ ins.length ((outs.length + k) % q.capacity_) := by
      have hstep : cnt q.capacity_ (outs.length + k + 1)
          ((outs.length + k) % q.capacity_) =
          (outs.length + k) / q.capacity_ + 1 := by
        rw [cnt_succ, if_pos rfl, cnt_self q.capacity_ hcap]
      have := cnt_mono q.capacity_ ((outs.length + k) % q.capacity_)
        (show outs.length + k + 1 ≤ ins.length by omega)
      omega
    rw [hslotAt (outs.length + k)]
    simp only [slotSpec]
    rw [hD, if_pos hE]
    have hidx : (outs.length + k) / q.capacity_ * q.capacity_ +
        (outs.length + k) % q.capacity_ = outs.length + k := by
      have hdm := Nat.div_add_mod (outs.length + k) q.capacity_
      have hc : q.capacity_ * ((outs.length + k) / q.capacity_) =
          (outs.length + k) / q.capacity_ * q.capacity_ := Nat.mul_comm _ _
      omega
    rw [hidx]
    rw [List.getElem_drop]
    rw [List.getD_eq_getElem ins default ht3]
    rfl

/-- Conservation: the enqueued values are exactly the dequeued values
followed by the values still stored. -/
theorem conservation_good {α : Type} [Inhabited α] {q : Queue α}
    {ins outs : List α} (hg : GoodState q ins outs) :
    ins = outs ++ q.contents := by
  have hpre : outs = ins.take outs.length := hg.2.2.2.2.2.1
  rw [contents_good hg]
  conv_lhs => rw [← List.take_append_drop outs.length ins]
  rw [← hpre]

/-- The loop reports failure only from an iteration whose slot load showed an
unexpected turn for the current ticket and whose counter re-load returned
that same ticket. -/
theorem tryLoop_failure {expected : Nat → Nat} :
    ∀ (obs : List TryObs) (t0 t : Nat),
    tryLoop expected t0 obs = .failure t →
    ∃ o ∈ obs, o.slotTurn ≠ expected t ∧ o.reload = t := by
  intro obs
  induction obs with
  | nil =>
    intro t0 t h
    simp [tryLoop] at h
  | cons o rest ih =>
    intro t0 t h
    rw [tryLoop] at h
    split_ifs at h with h1 h2 h3
    · obtain ⟨o2, ho2, hprop⟩ := ih _ _ h
      exact ⟨o2, List.mem_cons_of_mem o ho2, hprop⟩
    · injection h with ht
      subst ht
      exact ⟨o, List.mem_cons_self o rest, h1, h3⟩
    · obtain ⟨o2, ho2, hprop⟩ := ih _ _ h
      exact ⟨o2, List.mem_cons_of_mem o ho2, hprop⟩

theorem emplace_isSome_iff {α : Type} (q : Queue α) (v : α) :
    (q.emplace v).isSome = true ↔
      (q.slotAt q.head_).turn = q.turn_ q.head_ * 2 := by
  simp only [Queue.emplace]
  split_ifs with hguard <;> simp [hguard]

theorem pop_isSome_iff {α : Type} [Inhabited α] (q : Queue α) :
    (q.pop).isSome = true ↔
      (q.slotAt q.tail_).turn = q.turn_ q.tail_ * 2 + 1 := by
  simp only [Queue.pop]
  split_ifs with hguard <;> simp [hguard]

/-- C1: FIFO delivery and conservation: in any completed sequential run of
enqueue / dequeue / try_enqueue / try_dequeue operations (each completed
dequeue necessarily found an element available), the dequeued values are
exactly the oldest enqueued values in enqueue order — `outs` is the prefix of
`ins` of its length — the enqueued values are exactly the dequeued values
followed by the queue's remaining contents (no element created, duplicated or
lost), and once every enqueued element has been dequeued the multiset of
dequeued values equals the multiset of enqueued values. -/
theorem C1_fifo_conservation {α : Type} [Inhabited α] (cap : Nat)
    (ops : List (Op α)) (q : Queue α) (ins outs : List α) (hcap : 0 < cap)
    (h : run α cap ops = some (q, ins, outs)) :
    outs = ins.take outs.length ∧
    ins = outs ++ q.contents ∧
    (outs.length = ins.length → (outs : Multiset α) = (ins : Multiset α)) := by
  have hg := run_good hcap h
  refine ⟨hg.2.2.2.2.2.1, conservation_good hg, fun hlen => ?_⟩
  have heq : outs = ins := by
    have h1 := hg.2.2.2.2.2.1
    rw [h1, hlen, List.take_length]
  rw [heq]

theorem C1_fifo_conservation_witness :
    ([1, 2] : List Nat) = [1, 2].take 2 ∧
    ([1, 2] : List Nat) =
      [1, 2] ++ (Queue.mk 2 [Slot.mk 2 none, Slot.mk 2 none] 2 2).contents ∧
    ((2 : Nat) = 2 →
      (([1, 2] : List Nat) : Multiset Nat) = (([1, 2] : List Nat) : Multiset Nat)) := by
  have h := C1_fifo_conservation 2 [Op.enq 1, Op.enq 2, Op.deq, Op.deq]
    (Queue.mk 2 [Slot.mk 2 none, Slot.mk 2 none] 2 2) [1, 2] [1, 2]
    (by decide) (by decide)
  exact ⟨h.1, h.2.1, fun _ => h.2.2 rfl⟩

/-- C2: Turn parity invariant: in every state reachable from a fresh queue by
a sequence of enqueue, dequeue, try_enqueue and try_dequeue operations, a
slot's storage holds a live element iff its turn is odd; an odd turn equals
`2*g + 1` where `g` is the generation of the consumer the slot awaits (the
count of consumer tickets already served on the slot), and an even turn
equals `2*g` where `g` is the generation of the producer the slot awaits; in
particular no turn value outside `{2*g, 2*g + 1}` for the slot's current
generation `g` is reachable. -/
theorem C2_turn_parity {α : Type} [Inhabited α] (cap : Nat)
    (ops : List (Op α)) (q : Queue α) (ins outs : List α) (hcap : 0 < cap)
    (h : run α cap ops = some (q, ins, outs)) (j : Nat) (hj : j < q.capacity_) :
    ((q.slots_.getD j ⟨0, none⟩).storage.isSome = true ↔
      (q.slots_.getD j ⟨0, none⟩).turn % 2 = 1) ∧
    ((q.slots_.getD j ⟨0, none⟩).turn % 2 = 1 →
      (q.slots_.getD j ⟨0, none⟩).turn = 2 * cnt q.capacity_ q.tail_ j + 1) ∧
    ((q.slots_.getD j ⟨0, none⟩).turn % 2 = 0 →
      (q.slots_.getD j ⟨0, none⟩).turn = 2 * cnt q.capacity_ q.head_ j) := by
  have hg := run_good hcap h
  have hslot : q.slots_.getD j ⟨0, none⟩ =
      slotSpec q.capacity_ ins outs.length j := by
    rw [hg.2.2.2.2.2.2, getD_map_range _ hj]
  obtain ⟨hcap', hh, ht, hlen1, hlen2, hpre, hslots⟩ := hg
  have hDE : cnt q.capacity_ outs.length j ≤ cnt q.capacity_ ins.length j :=
    cnt_mono _ j hlen1
  have hED : cnt q.capacity_ ins.length j ≤ cnt q.capacity_ outs.length j + 1 :=
    cnt_window _ hcap' j hj hlen1 hlen2
  rw [hslot, hh, ht]
  simp only [slotSpec]
  by_cases hocc : cnt q.capacity_ outs.length j < cnt q.capacity_ ins.length j
  · rw [if_pos hocc]
    refine ⟨by simp; omega, fun _ => by omega, fun he => by omega⟩
  · rw [if_neg hocc]
    refine ⟨by simp; omega, fun he => by omega, fun _ => by omega⟩

theorem C2_turn_parity_witness :
    (1 : Nat) % 2 = 1 ∧ (1 : Nat) = 2 * cnt 2 0 0 + 1 ∧
    (0 : Nat) = 2 * cnt 2 1 1 := by
  have h0 := C2_turn_parity 2 [Op.enq 5]
    (Queue.mk 2 [Slot.mk 1 (some 5), Slot.mk 0 none] 1 0) [5] []
    (by decide) (by decide) 0 (by decide)
  have h1 := C2_turn_parity 2 [Op.enq 5]
    (Queue.mk 2 [Slot.mk 1 (some 5), Slot.mk 0 none] 1 0) [5] []
    (by decide) (by decide) 1 (by decide)
  exact ⟨h0.1.mp rfl, h0.2.1 (by decide), h1.2.2 (by decide)⟩

/-- C3: Non-blocking failure rule: the `try_emplace` retry loop returns false
only from an iteration in which, between two consecutive loads of `head_`
that returned the same ticket `t`, the slot of `t` did not carry the expected
turn `(t / capacity) * 2`; when the slot carries the expected turn the loop
attempts the compare-exchange (returning true on success), and on
compare-exchange failure or on observing a changed counter it retries instead
of returning false.  Symmetric for `try_pop` with expected turn
`(t / capacity) * 2 + 1`. -/
theorem C3_nonblocking_failure (cap t0 t : Nat) (obs : List TryObs) :
    (tryLoop (tryEmplaceExpected cap) t0 obs = .failure t →
      ∃ o ∈ obs, o.slotTurn ≠ t / cap * 2 ∧ o.reload = t) ∧
    (tryLoop (tryPopExpected cap) t0 obs = .failure t →
      ∃ o ∈ obs, o.slotTurn ≠ t / cap * 2 + 1 ∧ o.reload = t) ∧
    (∀ o rest, o.slotTurn = tryEmplaceExpected cap t0 → o.casSuccess = true →
      tryLoop (tryEmplaceExpected cap) t0 (o :: rest) = .success t0) ∧
    (∀ o rest, o.slotTurn = tryEmplaceExpected cap t0 → o.casSuccess = false →
      tryLoop (tryEmplaceExpected cap) t0 (o :: rest) =
        tryLoop (tryEmplaceExpected cap) o.casObserved rest) ∧
    (∀ o rest, o.slotTurn ≠ tryEmplaceExpected cap t0 → o.reload ≠ t0 →
      tryLoop (tryEmplaceExpected cap) t0 (o :: rest) =
        tryLoop (tryEmplaceExpected cap) o.reload rest) := by
  refine ⟨fun h => tryLoop_failure obs t0 t h,
    fun h => tryLoop_failure obs t0 t h, ?_, ?_, ?_⟩
  · intro o rest h1 h2
    simp [tryLoop, h1, h2]
  · intro o rest h1 h2
    simp [tryLoop, h1, h2]
  · intro o rest h1 h2
    simp [tryLoop, h1, h2]

theorem C3_nonblocking_failure_witness :
    ((5 : Nat) ≠ 3 / 1 * 2 ∧ (3 : Nat) = 3) ∧
    ((5 : Nat) ≠ 3 / 1 * 2 + 1 ∧ (3 : Nat) = 3) := by
  have h := C3_nonblocking_failure 1 3 3 [TryObs.mk 5 false 0 3]
  constructor
  · obtain ⟨o, ho, h1, h2⟩ := h.1 (by decide)
    have ho' : o = TryObs.mk 5 false 0 3 := List.mem_singleton.mp ho
    subst ho'
    exact ⟨h1, h2⟩
  · obtain ⟨o, ho, h1, h2⟩ := h.2.1 (by decide)
    have ho' : o = TryObs.mk 5 false 0 3 := List.mem_singleton.mp ho
    subst ho'
    exact ⟨h1, h2⟩

/-- C4: `size()` returns the signed difference `head_ - tail_` as a signed
integer (negative when consumers have claimed tickets not yet matched by
producers), and `empty()` returns true iff `size() ≤ 0`; stated for counter
values below `2^63`, the regime in which the source's `size_t` subtraction
followed by the `ptrdiff_t` cast is the mathematical signed difference. -/
theorem C4_size_empty {α : Type} (q : Queue α)
    (hh : q.head_ < 2 ^ 63) (ht : q.tail_ < 2 ^ 63) :
    q.size = (q.head_ : Int) - (q.tail_ : Int) ∧
    (q.isEmpty = true ↔ q.size ≤ 0) := by
  have h64 : (2 : Nat) ^ 64 = 18446744073709551616 := by norm_num
  have h63 : (2 : Nat) ^ 63 = 9223372036854775808 := by norm_num
  rw [h63] at hh ht
  constructor
  · unfold Queue.size size_t_sub toPtrdiff
    rw [h63, h64]
    have hmod : q.tail_ % 18446744073709551616 = q.tail_ := by omega
    rw [hmod]
    rcases Nat.lt_or_ge q.head_ q.tail_ with hlt | hge
    · have hX : (q.head_ + (18446744073709551616 - q.tail_)) %
          18446744073709551616 =
          18446744073709551616 - (q.tail_ - q.head_) := by omega
      rw [hX, if_neg (by omega)]
      omega
    · have hX : (q.head_ + (18446744073709551616 - q.tail_)) %
          18446744073709551616 = q.head_ - q.tail_ := by omega
      rw [hX, if_pos (by omega)]
      omega
  · unfold Queue.isEmpty
    simp

theorem C4_size_empty_witness :
    (Queue.mk 0 ([] : List (Slot Nat)) 1 2).size = (1 : Int) - (2 : Int) ∧
    ((Queue.mk 0 ([] : List (Slot Nat)) 1 2).isEmpty = true ↔
      (Queue.mk 0 ([] : List (Slot Nat)) 1 2).size ≤ 0) := by
  have h := C4_size_empty (Queue.mk 0 ([] : List (Slot Nat)) 1 2)
    (by norm_num) (by norm_num)
  simpa using h

/-- C5: Construction error semantics and atomicity: capacity < 1 fails with
the invalid-argument error before any allocator interaction; a misaligned
allocation fails with the allocation error after deallocating the
just-allocated array, so the allocations balance and nothing leaks; a
positive capacity with an aligned allocation succeeds with `head_ = 0`,
`tail_ = 0` and all `capacity` slots initialised to turn 0 with no live
element. -/
theorem C5_construction (α : Type) (capacity : Nat) (aligned : Bool) :
    (capacity < 1 →
      construct α capacity aligned = (.error .invalidArgument, [])) ∧
    (1 ≤ capacity → aligned = false →
      (construct α capacity aligned).1 = .error .allocationFailure ∧
      allocatedTotal (construct α capacity aligned).2 =
        deallocatedTotal (construct α capacity aligned).2) ∧
    (1 ≤ capacity → aligned = true →
      (construct α capacity aligned).1 = .ok (freshQueue α capacity) ∧
      (freshQueue α capacity).head_ = 0 ∧
      (freshQueue α capacity).tail_ = 0 ∧
      (freshQueue α capacity).slots_ =
        List.replicate capacity ⟨0, none⟩) := by
  refine ⟨?_, ?_, ?_⟩
  · intro h1
    simp [construct, h1]
  · intro h1 h2
    subst h2
    rw [construct, if_neg (by omega)]
    simp [allocatedTotal, deallocatedTotal]
  · intro h1 h2
    subst h2
    rw [construct, if_neg (by omega)]
    exact ⟨rfl, rfl, rfl, rfl⟩

theorem C5_construction_witness :
    construct Nat 0 true = (.error .invalidArgument, []) ∧
    (construct Nat 2 false).1 = .error .allocationFailure ∧
    allocatedTotal (construct Nat 2 false).2 =
      deallocatedTotal (construct Nat 2 false).2 ∧
    (construct Nat 2 true).1 = .ok (freshQueue Nat 2) := by
  have h0 := C5_construction Nat 0 true
  have h2f := C5_construction Nat 2 false
  have h2t := C5_construction Nat 2 true
  exact ⟨h0.1 (by decide), (h2f.2.1 (by decide) rfl).1,
    (h2f.2.1 (by decide) rfl).2, (h2t.2.2 (by decide) rfl).1⟩

/-- C6: Destructor discipline: in every reachable sequential state, queue
destruction destroys the live element of exactly those slots whose turn is
odd (a slot's destructor fires iff its storage holds a live element), and the
total number of element constructions performed by the queue (one per
completed enqueue) equals the destructions performed by dequeues plus those
performed by the destructor. -/
theorem C6_destructor {α : Type} [Inhabited α] (cap : Nat) (ops : List (Op α))
    (q : Queue α) (ins outs : List α) (hcap : 0 < cap)
    (h : run α cap ops = some (q, ins, outs)) :
    (∀ s ∈ q.slots_, (Slot.dtorDestroys s = true ↔ s.storage.isSome = true)) ∧
    outs.length + q.destructorDestroyCount = ins.length := by
  have hg := run_good hcap h
  have hl := (liveCount_good hg).1
  have hlen1 := hg.2.2.2.1
  constructor
  · intro s hs
    rw [hg.2.2.2.2.2.2] at hs
    obtain ⟨j, hj, rfl⟩ := List.mem_map.mp hs
    have hj' := List.mem_range.mp hj
    obtain ⟨hcap', hh, ht, hlen1', hlen2, -, -⟩ := hg
    have hDE := cnt_mono q.capacity_ j hlen1'
    have hED := cnt_window q.capacity_ hcap' j hj' hlen1' hlen2
    simp only [Slot.dtorDestroys, slotSpec]
    by_cases hocc : cnt q.capacity_ outs.length j < cnt q.capacity_ ins.length j
    · rw [if_pos hocc]
      simp
      omega
    · rw [if_neg hocc]
      simp
      omega
  · have hcount : q.destructorDestroyCount = q.liveCount := rfl
    rw [hcount, hl]
    omega

theorem C6_destructor_witness :
    (Slot.dtorDestroys (Slot.mk 1 (some (7 : Nat))) = true ↔
      (some (7 : Nat)).isSome = true) ∧
    0 + (Queue.mk 1 [Slot.mk 1 (some (7 : Nat))] 1 0).destructorDestroyCount = 1 := by
  have h := C6_destructor 1 [Op.enq 7]
    (Queue.mk 1 [Slot.mk 1 (some 7)] 1 0) [7] [] (by decide) (by decide)
  exact ⟨h.1 (Slot.mk 1 (some 7)) (by decide), h.2⟩

/-- C7: Capacity bound: in every state reachable from a fresh queue of
capacity `C`, the number of slots holding a live element (odd turn) is
exactly `head_ - tail_` and never exceeds `C`. -/
theorem C7_capacity_bound {α : Type} [Inhabited α] (cap : Nat)
    (ops : List (Op α)) (q : Queue α) (ins outs : List α) (hcap : 0 < cap)
    (h : run α cap ops = some (q, ins, outs)) :
    q.liveCount = q.head_ - q.tail_ ∧ q.liveCount ≤ q.capacity_ := by
  have hg := run_good hcap h
  have hl := liveCount_good hg
  obtain ⟨hcap', hh, ht, -, -, -, -⟩ := hg
  refine ⟨?_, hl.2⟩
  rw [hh, ht]
  exact hl.1

theorem C7_capacity_bound_witness :
    (Queue.mk 1 [Slot.mk 1 (some (7 : Nat))] 1 0).liveCount = 1 - 0 ∧
    (Queue.mk 1 [Slot.mk 1 (some (7 : Nat))] 1 0).liveCount ≤ 1 := by
  have h := C7_capacity_bound 1 [Op.enq 7]
    (Queue.mk 1 [Slot.mk 1 (some 7)] 1 0) [7] [] (by decide) (by decide)
  exact ⟨h.1, h.2⟩

/-- C8: Blocking completion: the busy-wait of blocking `emplace` for ticket
`head_` exits exactly when the slot at `idx_(head_)` carries turn
`turn_(head_) * 2` — in particular, in a reachable sequential state holding
fewer than `capacity` elements the enqueue completes — and blocking `pop`
completes exactly when the slot for ticket `tail_` carries turn
`turn_(tail_) * 2 + 1`. -/
theorem C8_blocking_termination {α : Type} [Inhabited α] (cap : Nat)
    (ops : List (Op α)) (q : Queue α) (ins outs : List α) (v : α)
    (hcap : 0 < cap) (h : run α cap ops = some (q, ins, outs)) :
    ((q.emplace v).isSome = true ↔
      (q.slotAt q.head_).turn = q.turn_ q.head_ * 2) ∧
    (q.head_ - q.tail_ < q.capacity_ → (q.emplace v).isSome = true) ∧
    ((q.pop).isSome = true ↔
      (q.slotAt q.tail_).turn = q.turn_ q.tail_ * 2 + 1) := by
  have hg := run_good hcap h
  refine ⟨emplace_isSome_iff q v, ?_, pop_isSome_iff q⟩
  intro hlt
  rw [emplace_isSome_iff q v, enq_guard_iff hg]
  have h1 : q.tail_ ≤ q.head_ := by
    obtain ⟨-, hh, ht, hlen1, -, -, -⟩ := hg
    omega
  omega

theorem C8_blocking_termination_witness :
    ((freshQueue Nat 1).emplace 0).isSome = true ∧
    (((freshQueue Nat 1).pop).isSome = true ↔
      ((freshQueue Nat 1).slotAt (freshQueue Nat 1).tail_).turn =
        (freshQueue Nat 1).turn_ (freshQueue Nat 1).tail_ * 2 + 1) := by
  have h := C8_blocking_termination 1 [] (freshQueue Nat 1) [] [] 0
    (by decide) (by decide)
  exact ⟨h.2.1 (by decide), h.2.2⟩

/-- C9: Failed try operations change nothing: when `try_emplace` returns
false the queue is unchanged, and when `try_pop` returns false the queue and
the caller's out-parameter are unchanged; moreover the capacity-1 scenario
behaves as specified: `try_enqueue 1` succeeds, `try_enqueue 2` then fails
leaving the state intact, `try_dequeue` succeeds yielding 1, and a second
`try_dequeue` fails leaving the state and the out-parameter (still 1)
intact. -/
theorem C9_try_frame :
    (∀ (α : Type) (q : Queue α) (v : α),
      (q.try_emplace v).1 = false → (q.try_emplace v).2 = q) ∧
    (∀ (α : Type) (q : Queue α) (w : α),
      (q.try_pop w).1 = false →
        (q.try_pop w).2.1 = q ∧ (q.try_pop w).2.2 = w) ∧
    ((freshQueue Nat 1).try_emplace 1 =
      (true, Queue.mk 1 [Slot.mk 1 (some 1)] 1 0)) ∧
    ((Queue.mk 1 [Slot.mk 1 (some 1)] 1 0).try_emplace 2 =
      (false, Queue.mk 1 [Slot.mk 1 (some 1)] 1 0)) ∧
    ((Queue.mk 1 [Slot.mk 1 (some 1)] 1 0).try_pop 0 =
      (true, Queue.mk 1 [Slot.mk 2 none] 1 1, 1)) ∧
    ((Queue.mk 1 [Slot.mk 2 none] 1 1).try_pop 1 =
      (false, Queue.mk 1 [Slot.mk 2 none] 1 1, 1)) := by
  refine ⟨fun α q v => try_emplace_false_frame q v,
    fun α q w => try_pop_false_frame q w,
    by decide, by decide, by decide, by decide⟩

theorem C9_try_frame_witness :
    ((Queue.mk 1 [Slot.mk 1 (some (1 : Nat))] 1 0).try_emplace 2).2 =
      Queue.mk 1 [Slot.mk 1 (some 1)] 1 0 ∧
    ((Queue.mk 1 [Slot.mk 2 none] 1 1).try_pop (1 : Nat)).2.1 =
      Queue.mk 1 [Slot.mk 2 none] 1 1 ∧
    ((Queue.mk 1 [Slot.mk 2 none] 1 1).try_pop (1 : Nat)).2.2 = 1 := by
  have h := C9_try_frame
  exact ⟨h.1 Nat _ 2 (by decide), (h.2.1 Nat _ 1 (by decide)).1,
    (h.2.1 Nat _ 1 (by decide)).2⟩

/-- C10 counterexample: the trait vector of a type that is nothrow
copy-assignable and nothrow destructible but neither nothrow copy- nor
nothrow move-constructible (realisable in C++, e.g. a type with a throwing
copy constructor and a defaulted `noexcept` copy assignment operator) passes
the queue's class-level static checks, refuting the claim that every accepted
element type is nothrow copy- or move-constructible: the class-level
`static_assert`s test assignability, not constructibility. -/
theorem C10_counterexample :
    queue_static_checks (TypeTraits.mk true false true false false) = true ∧
    (TypeTraits.mk true false true false false).nothrow_copy_constructible
      = false ∧
    (TypeTraits.mk true false true false false).nothrow_move_constructible
      = false := by
  decide

/-- C10 (amended): every element type accepted by the queue's class-level
static checks is nothrow destructible and is nothrow copy-assignable or
nothrow move-assignable (at least one); the copying `push`/`try_push`
overloads additionally require nothrow copy constructibility; trait vectors
failing these requirements are rejected by the corresponding checks. -/
theorem C10_static_checks (t : TypeTraits)
    (h : queue_static_checks t = true) :
    t.nothrow_destructible = true ∧
    (t.nothrow_copy_assignable = true ∨ t.nothrow_move_assignable = true) ∧
    (push_static_checks t = true → t.nothrow_copy_constructible = true) := by
  unfold queue_static_checks at h
  rw [Bool.and_eq_true, Bool.or_eq_true] at h
  refine ⟨h.2, h.1, ?_⟩
  intro hp
  unfold push_static_checks at hp
  rw [Bool.and_eq_true] at hp
  exact hp.2

theorem C10_static_checks_witness :
    (TypeTraits.mk true true true true true).nothrow_destructible = true ∧
    ((TypeTraits.mk true true true true true).nothrow_copy_assignable = true ∨
      (TypeTraits.mk true true true true true).nothrow_move_assignable = true) ∧
    (push_static_checks (TypeTraits.mk true true true true true) = true →
      (TypeTraits.mk true true true true true).nothrow_copy_constructible
        = true) :=
  C10_static_checks (TypeTraits.mk true true true true true) (by decide)

end Mpmc
